import Mathlib

/-!
Verification of the geodesy coordinate-transformation core against its
natural-language specification.  The Rust sources embedded here are
`src/context.rs` (GYS normalizer, macro registry, operation table),
`src/inner_op/pipeline.rs` (pipeline kernels), `src/operator/adapt.rs`
(axis/unit adaptation) and `src/operator/molodensky.rs` (datum shift).

Strings are modelled as `List Char`; the Rust `str` helpers used by the
sources (`trim`, `split_whitespace`, `split`, `lines`, `trim_matches`,
`starts_with`, `ends_with`, `contains`, `find`) are given faithful
executable models below.  Floating point is idealized over `ℝ`.
-/

namespace Geodesy

/-- A Rust string, modelled as its list of characters. -/
abbrev Str := List Char

/-- Conversion from a Lean string literal to the `Str` model. -/
def st (s : String) : Str := s.toList

/-- The apostrophe character, used by error messages of `gys_to_yaml`. -/
def sq : Char := Char.ofNat 39

/-- Whitespace test modelling Rust `char::is_whitespace` on the ASCII
range actually reachable in this code base. -/
def isWs (c : Char) : Bool :=
  c = ' ' || c = '\t' || c = '\n' || c = '\r' || c = Char.ofNat 11 || c = Char.ofNat 12

/-- Rust `str::trim_start`. -/
def trimLeft (l : Str) : Str := l.dropWhile isWs

/-- Rust `str::trim_end`. -/
def trimRight (l : Str) : Str := (l.reverse.dropWhile isWs).reverse

/-- Rust `str::trim`. -/
def trim (l : Str) : Str := trimRight (trimLeft l)

/-- Rust `str::trim_matches(c)`: strip every leading and trailing
occurrence of the character `c`. -/
def trimMatchesChar (c : Char) (l : Str) : Str :=
  ((l.dropWhile (· = c)).reverse.dropWhile (· = c)).reverse

/-- Rust `str::starts_with(c)` for a character pattern. -/
def headIs (c : Char) (l : Str) : Bool :=
  match l with
  | [] => false
  | x :: _ => x = c

/-- Rust `str::ends_with(c)` for a character pattern. -/
def lastIs (c : Char) (l : Str) : Bool := headIs c l.reverse

/-- Rust `str::starts_with(p)` for a string pattern. -/
def startsWithSeq (p l : Str) : Bool :=
  match p, l with
  | [], _ => true
  | _ :: _, [] => false
  | a :: ps, b :: ls => a = b && startsWithSeq ps ls

/-- Rust `str::ends_with(p)` for a string pattern. -/
def endsWithSeq (p l : Str) : Bool := startsWithSeq p.reverse l.reverse

/-- Rust `str::contains(p)` for a string pattern: `p` occurs as a
contiguous substring of `l`. -/
def containsSeq (p l : Str) : Bool :=
  match l with
  | [] => startsWithSeq p []
  | _ :: ls => startsWithSeq p l || containsSeq p ls

/-- Rust `str::contains(c)` for a character pattern. -/
def containsChar (c : Char) (l : Str) : Bool := l.contains c

/-- Rust `str::split(c)`: split at every occurrence of `c`, keeping
empty pieces (`"".split(c)` is one empty piece). -/
def splitOnChar (c : Char) : Str → List Str
  | [] => [[]]
  | x :: xs =>
    match splitOnChar c xs with
    | [] => [[]]
    | h :: t => if x = c then [] :: h :: t else (x :: h) :: t

/-- Rust `str::lines`: split at newlines, dropping a final empty piece
produced by a trailing newline, and stripping a trailing `\r`. -/
def linesOf (l : Str) : List Str :=
  if l = [] then []
  else
    let parts := splitOnChar '\n' l
    let parts := if lastIs '\n' l then parts.dropLast else parts
    parts.map (fun p => if lastIs '\r' p then p.dropLast else p)

/-- `Vec::join(sep)` for our string model. -/
def joinWith (c : Char) : List Str → Str
  | [] => []
  | [x] => x
  | x :: y :: t => x ++ c :: joinWith c (y :: t)

/-- Worker of `splitWs`, carrying the (reversed) token being built. -/
def splitWsAux : Str → Str → List Str
  | [], acc => if acc = [] then [] else [acc.reverse]
  | c :: cs, acc =>
    if isWs c then
      if acc = [] then splitWsAux cs [] else acc.reverse :: splitWsAux cs []
    else splitWsAux cs (c :: acc)

/-- Rust `str::split_whitespace`: maximal runs of non-whitespace. -/
def splitWs (l : Str) : List Str := splitWsAux l []

/-- Rust `str::ends_with(c)` on a token (alias used for the trailing
colon tests of the normalizer). -/
def endsWithChar (c : Char) (l : Str) : Bool := lastIs c l

/-- Association-list lookup, modelling `HashMap::get` on string keys. -/
def lookupAssoc (m : List (Str × Str)) (k : Str) : Option Str :=
  match m with
  | [] => none
  | (k2, v) :: t => if k2 = k then some v else lookupAssoc t k

/-- `HashMap::insert` on an association list: replaces the binding when
the key is present, appends otherwise. -/
def insertAssoc (k v : Str) (m : List (Str × Str)) : List (Str × Str) :=
  match m with
  | [] => [(k, v)]
  | (k2, v2) :: t => if k2 = k then (k2, v) :: t else (k2, v2) :: insertAssoc k v t

/-- `Context::is_gys` from `src/context.rs`: heuristic classification of
a definition string as GYS (shorthand) rather than YAML. -/
def isGys (g : Str) : Bool :=
  if containsSeq (st " | ") g then true
  else if headIs '|' g then true
  else if lastIs '|' g then true
  else if headIs '[' g then lastIs ']' g
  else if lastIs ']' g then headIs '[' g
  else if !(endsWithChar ':' ((splitWs g).headD [])) then true
  else false

/-- The classification rule exactly as claim C4 words it: a plain
five-way disjunction, with the bracket test only in its "matching
brackets" form. -/
def isGysClaimed (g : Str) : Bool :=
  containsSeq (st " | ") g || headIs '|' g || lastIs '|' g ||
    (headIs '[' g && lastIs ']' g) ||
    !(endsWithChar ':' ((splitWs g).headD []))

/-- Inner loop of `Context::gys_to_yaml` over the argument tokens
`elements[1..]` of one step.  The source consumes the token following a
`key:` token by blanking it (`elements[i+1] = ""`) and skipping blanks;
this recursion consumes it by moving past it directly, which is the same
trace (tokens produced by `split_whitespace` are never empty).  The `, `
separators reproduce the `i + 2 < n` / `i + 1 < n` index tests. -/
def procElems : List Str → Str → Except Str Str
  | [], yaml => .ok yaml
  | e :: rest, yaml =>
    if e = [] then procElems rest yaml
    else if endsWithChar ':' e then
      match rest with
      | [] => .error (st "Missing value for key " ++ [sq] ++ e ++ [sq])
      | v :: rest2 =>
        let y2 := yaml ++ e ++ st " " ++ v
        let y3 := if rest2 ≠ [] then y2 ++ st ", " else y2
        procElems rest2 y3
    else if containsChar ':' e then
      let y2 := yaml ++ e.flatMap (fun c => if c = ':' then st ": " else [c])
      let y3 := if rest ≠ [] then y2 ++ st ", " else y2
      procElems rest y3
    else
      let y2 := yaml ++ e ++ st ": true"
      let y3 := if rest ≠ [] then y2 ++ st ", " else y2
      procElems rest y3

/-- Per-step loop of `Context::gys_to_yaml`: strip the inline comment
(everything from the first `#` to the end of the *step*), trim, split
into whitespace tokens, and emit `name: { args }`.  Early `return`s of
the source are the `.error` branch. -/
def processSteps : List Str → Str → Str → Except Str Str
  | [], _, yaml => .ok yaml
  | step :: rest, indent, yaml =>
    let strip := trim (step.takeWhile (fun c => c != '#'))
    let elements := splitWs strip
    let n := elements.length
    if n = 0 then .error (st "Error: Empty step!")
    else
      let y1 := yaml ++ indent
      let ind2 := st ",\n    "
      let y2 := y1 ++ elements.headD [] ++ st ":"
      if n = 1 then processSteps rest ind2 (y2 ++ st " \x7b\x7d")
      else
        match procElems elements.tail (y2 ++ st " \x7b") with
        | .error e => .error e
        | .ok y => processSteps rest ind2 (y ++ st "\x7d")

/-- Equality of normalizer results (`Except` over strings) is
decidable, so concrete runs of the normalizer can be checked by
evaluation. -/
instance {α β : Type} [DecidableEq α] [DecidableEq β] : DecidableEq (Except α β) :=
  fun a b =>
    match a, b with
    | .error x, .error y =>
      if h : x = y then .isTrue (by rw [h])
      else .isFalse (fun hc => h (by cases hc; rfl))
    | .error _, .ok _ => .isFalse (fun hc => Except.noConfusion hc)
    | .ok _, .error _ => .isFalse (fun hc => Except.noConfusion hc)
    | .ok x, .ok y =>
      if h : x = y then .isTrue (by rw [h])
      else .isFalse (fun hc => h (by cases hc; rfl))

/-- `Context::gys_to_yaml` from `src/context.rs`: drop whole-line
comments, return YAML input unchanged, and otherwise rewrite the GYS
shorthand into the canonical `pipeline_from_gys` longhand.  Parse errors
are returned as the output string, exactly as in the source. -/
def gysToYaml (gys : Str) : Str :=
  let kept := (linesOf gys).filter (fun line => !(headIs '#' (trim line)))
  let g := trim (joinWith '\n' kept)
  if !(isGys g) then g
  else
    let g := trimMatchesChar '|' g
    let g := trimMatchesChar '[' g
    let g := trimMatchesChar ']' g
    let steps := splitOnChar '|' g
    let nsteps := steps.length
    let yaml0 := if nsteps > 1 then st "pipeline_from_gys: \x7b\n  steps: [\n" else []
    let ind0 := if nsteps > 1 then st "    " else []
    match processSteps steps ind0 yaml0 with
    | .error e => e
    | .ok y => if nsteps > 1 then y ++ st "\n  ]\n\x7d" else y

/-- The classification rule amended to match the early returns of the
source: a string starting with `[` or ending with `]` without the
matching partner is not GYS, and the first-token test only applies when
neither bracket is present at the matching end. -/
def isGysAmended (g : Str) : Bool :=
  containsSeq (st " | ") g || headIs '|' g || lastIs '|' g ||
    (headIs '[' g && lastIs ']' g) ||
    (!(headIs '[' g) && !(lastIs ']' g) &&
      !(endsWithChar ':' ((splitWs g).headD [])))

/-- Generic association-list lookup (for the operator registry). -/
def lookupAssocG {α : Type} (m : List (Str × α)) (k : Str) : Option α :=
  match m with
  | [] => none
  | (k2, v) :: t => if k2 = k then some v else lookupAssocG t k

/-- Generic `HashMap::insert` on an association list. -/
def insertAssocG {α : Type} (k : Str) (v : α) (m : List (Str × α)) : List (Str × α) :=
  match m with
  | [] => [(k, v)]
  | (k2, v2) :: t => if k2 = k then (k2, v) :: t else (k2, v2) :: insertAssocG k v t

/-- The `Context` of `src/context.rs`.  `Op` is the type of compiled
operators and `Ctor` the type of user operator constructors; both are
defined outside `src/`, so they stay abstract here.  The `stack` and
`minions` fields carry only per-chunk scratch state and are not touched
by any claim, so they are omitted. -/
structure Ctx (Op : Type) (Ctor : Type) where
  userDefinedOperators : List (Str × Ctor)
  userDefinedMacros : List (Str × Str)
  operations : List Op
  lastFailingOperationDefinition : Str
  lastFailingOperation : Str
  cause : Str

/-- `Context::_new()`: all tables empty. -/
def emptyCtx {Op Ctor : Type} : Ctx Op Ctor := ⟨[], [], [], [], [], []⟩

/-- `Context::register_macro`.  The source first rejects definitions
whose trimmed text starts with `name:`, then calls `HashMap::insert`
(which stores the new value unconditionally) and returns `false` when
`insert` reports that a previous value existed. -/
def registerMacro {Op Ctor : Type} (ctx : Ctx Op Ctor) (name defn : Str) :
    Bool × Ctx Op Ctor :=
  if startsWithSeq (name ++ [':']) (trimLeft defn) then (false, ctx)
  else
    let old := lookupAssoc ctx.userDefinedMacros name
    let ctx2 := { ctx with userDefinedMacros := insertAssoc name defn ctx.userDefinedMacros }
    if old.isSome then (false, ctx2) else (true, ctx2)

/-- `Context::register_operator`: unconditional insert (overwrites). -/
def registerOperator {Op Ctor : Type} (ctx : Ctx Op Ctor) (name : Str) (ctor : Ctor) :
    Ctx Op Ctor :=
  { ctx with userDefinedOperators := insertAssocG name ctor ctx.userDefinedOperators }

/-- `Context::error`. -/
def errorM {Op Ctor : Type} (ctx : Ctx Op Ctor) (which why : Str) : Ctx Op Ctor :=
  { ctx with lastFailingOperation := which, cause := why }

/-- The first line of `Context::operation`: prime the last-failure
fields for the new definition. -/
def ctxPrep {Op Ctor : Type} (ctx : Ctx Op Ctor) (d : Str) : Ctx Op Ctor :=
  { ctx with lastFailingOperationDefinition := d,
             lastFailingOperation := [], cause := [] }

/-- `Context::operation`.  `Operator::new` lives outside `src/`, so it
is passed in as `compile`; per the spec (§4.5) it parses, normalizes and
compiles but does not itself store into the operation table — the one
`push` below is the store. -/
def operationM {Op Ctor : Type} (compile : Ctx Op Ctor → Str → Option Op)
    (ctx : Ctx Op Ctor) (d : Str) : Option Nat × Ctx Op Ctor :=
  let ctx1 := ctxPrep ctx d
  match compile ctx1 d with
  | none => (none, ctx1)
  | some op =>
    (some ctx1.operations.length, { ctx1 with operations := ctx1.operations ++ [op] })

/-- `Context::operate`.  The kernel dispatch (`Operator::operate`) is
outside `src/` and abstracted as `exec`; the chunk loop over minions
touches only the minions' scratch stacks and is collapsed into one
kernel invocation on the whole batch. -/
def operateM {Op Ctor B : Type} (exec : Op → B → Bool → B × Bool)
    (ctx : Ctx Op Ctor) (operation : Nat) (operands : B) (forward : Bool) :
    Bool × Ctx Op Ctor × B :=
  if ctx.operations.length ≤ operation then
    (false, errorM ctx (st "Invalid")
      (st "Attempt to access an invalid operator from context"), operands)
  else
    match ctx.operations[operation]? with
    | none => (false, ctx, operands)
    | some op =>
      let r := exec op operands forward
      (r.2, ctx, r.1)

/-- A sequence of further `operation` calls on a context. -/
def applyOps {Op Ctor : Type} (compile : Ctx Op Ctor → Str → Option Op)
    (ds : List Str) (ctx : Ctx Op Ctor) : Ctx Op Ctor :=
  ds.foldl (fun c d => (operationM compile c d).2) ctx

/-- Direction of application of an operator (`Direction` of the newer
provider API used by `src/inner_op/pipeline.rs`). -/
inductive Direction where
  | Fwd : Direction
  | Inv : Direction

/-- `usize::MAX`. -/
def usizeMax : Nat := 2 ^ 64 - 1

/-- A pipeline child step, abstracted to its `apply` entry point (the
body of `Op::apply` is outside `src/`): a batch in, the direction, and
out come the updated batch and the success count. -/
def StepFn (B : Type) : Type := B → Direction → B × Nat

/-- The loop shared by `pipeline_fwd` and `pipeline_inv`: thread the
operand batch through the steps, keeping the minimum success count,
starting from `usize::MAX`. -/
def pipelineRunAux {B : Type} (d : Direction) (steps : List (StepFn B))
    (operands : B) (n : Nat) : B × Nat :=
  match steps with
  | [] => (operands, n)
  | s :: rest =>
    let r := s operands d
    pipelineRunAux d rest r.1 (min n r.2)

/-- `pipeline_fwd` from `src/inner_op/pipeline.rs`: every step in
declared order, direction `Fwd`. -/
def pipelineFwd {B : Type} (steps : List (StepFn B)) (operands : B) : B × Nat :=
  pipelineRunAux Direction.Fwd steps operands usizeMax

/-- `pipeline_inv` from `src/inner_op/pipeline.rs`: the steps reversed,
direction `Inv`. -/
def pipelineInv {B : Type} (steps : List (StepFn B)) (operands : B) : B × Nat :=
  pipelineRunAux Direction.Inv steps.reverse operands usizeMax

/-- The spec's wording of pipeline execution: apply the steps one after
another in the given order and collect each step's success count. -/
def applySeq {B : Type} (d : Direction) (steps : List (StepFn B)) (b : B) :
    B × List Nat :=
  match steps with
  | [] => (b, [])
  | s :: rest =>
    let r := s b d
    let q := applySeq d rest r.1
    (q.1, r.2 :: q.2)

/-- A `CoordinateTuple`: four double-precision components, idealized
over `ℝ`. -/
abbrev Coord := ℝ × ℝ × ℝ × ℝ

/-- Indexing `o[i]` on a coordinate tuple (indices are always in range
in the embedded code; out of range yields a junk `0`). -/
def get4 (o : Coord) (i : Nat) : ℝ :=
  match i with
  | 0 => o.1
  | 1 => o.2.1
  | 2 => o.2.2.1
  | 3 => o.2.2.2
  | _ => 0

/-- Index assignment `o[i] = v` on a coordinate tuple. -/
def set4 (o : Coord) (i : Nat) (v : ℝ) : Coord :=
  match i with
  | 0 => (v, o.2.1, o.2.2.1, o.2.2.2)
  | 1 => (o.1, v, o.2.2.1, o.2.2.2)
  | 2 => (o.1, o.2.1, v, o.2.2.2)
  | 3 => (o.1, o.2.1, o.2.2.1, v)
  | _ => o

/-- Modelled from the spec: `Ellipsoid` (§3) is a named record of
semimajor axis `a` and flattening `f`; the type itself lives outside
`src/`. -/
structure Ellipsoid where
  a : ℝ
  f : ℝ

/-- Modelled from the spec: `e² = f(2−f)` (§3). -/
noncomputable def eccentricitySquared (e : Ellipsoid) : ℝ := e.f * (2 - e.f)

/-- Modelled from the spec: prime-vertical radius
`N(φ) = a/√(1−e²·sin²φ)` (§3). -/
noncomputable def primeVerticalRadius (e : Ellipsoid) (phi : ℝ) : ℝ :=
  e.a / Real.sqrt (1 - eccentricitySquared e * Real.sin phi ^ 2)

/-- Modelled from the spec: meridian radius
`M(φ) = a(1−e²)/(1−e²·sin²φ)^(3/2)` (§3). -/
noncomputable def meridianRadius (e : Ellipsoid) (phi : ℝ) : ℝ :=
  e.a * (1 - eccentricitySquared e) /
    (1 - eccentricitySquared e * Real.sin phi ^ 2) ^ ((3 : ℝ) / 2)

/-- The GRS80 ellipsoid (the crate's default ellipsoid). -/
noncomputable def grs80 : Ellipsoid := ⟨6378137, 1 / 298.257222101⟩

/-- The WGS84 ellipsoid. -/
noncomputable def wgs84 : Ellipsoid := ⟨6378137, 1 / 298.257223563⟩

/-- The International (Hayford) ellipsoid, named `intl`. -/
noncomputable def intl : Ellipsoid := ⟨6378388, 1 / 297⟩

/-- Modelled from the spec: `Ellipsoid::named` (outside `src/`),
restricted to the names the embedded code and tests use. -/
noncomputable def namedEllipsoid (s : Str) : Option Ellipsoid :=
  if s = st "GRS80" then some grs80
  else if s = st "intl" then some intl
  else if s = st "WGS84" then some wgs84
  else none

/-- Modelled from the spec: `args.flag(key)` (§4.2) — true iff the key
is present with the literal value `true` (bare flags are normalized to
that value). -/
def argsFlag (args : List (Str × Str)) (key : Str) : Bool :=
  lookupAssoc args key == some (st "true")

/-- Modelled from the spec: `args.string(key, default)` (§4.2). -/
def argsString (args : List (Str × Str)) (key default : Str) : Str :=
  (lookupAssoc args key).getD default

/-- Modelled from the spec: `args.value(key).is_ok()` (§4.2) — key
presence. -/
def argsHasValue (args : List (Str × Str)) (key : Str) : Bool :=
  (lookupAssoc args key).isSome

/-- Modelled from the spec: `args.numeric(key, default)` (§4.2); the
lexical float parser is abstracted as `parseNum`, since no claim
depends on it. -/
noncomputable def argsNumeric (parseNum : Str → ℝ) (args : List (Str × Str))
    (key : Str) (default : ℝ) : ℝ :=
  match lookupAssoc args key with
  | none => default
  | some v => parseNum v

/-- A parsed `adapt` axis descriptor, from `src/operator/adapt.rs`:
`post` is the permutation and `mult` the per-axis multiplier.  The
source also stores a `noop` flag used only as an early-out in the
kernels; when it holds, the kernel loops below are the identity anyway,
so the flag is dropped from the embedding. -/
structure CoordinateOrderDescriptor where
  post : Nat × Nat × Nat × Nat
  mult : ℝ × ℝ × ℝ × ℝ

/-- The sign-and-position designator of one axis letter (the `match d`
of `descriptor`); `0` is the unreachable default arm. -/
def charDesignator (c : Char) : Int :=
  if c = 'w' then -1
  else if c = 's' then -2
  else if c = 'd' then -3
  else if c = 'r' then -4
  else if c = 'e' then 1
  else if c = 'n' then 2
  else if c = 'u' then 3
  else if c = 't' then 4
  else 0

/-- The designator loop of `descriptor`: every letter must come from
`neutswdr`, else the parse fails. -/
def descriptorIndices (cs : List Char) : Option (List Int) :=
  if cs.all (fun c => (st "neutswdr").contains c) then some (cs.map charDesignator)
  else none

/-- The permutation check of `descriptor`: every internal axis is hit
exactly once. -/
def permutationCheck (idx : List Int) : Bool :=
  (idx.countP (fun d => d.natAbs == 1) == 1) &&
  (idx.countP (fun d => d.natAbs == 2) == 1) &&
  (idx.countP (fun d => d.natAbs == 3) == 1) &&
  (idx.countP (fun d => d.natAbs == 4) == 1)

/-- `descriptor` from `src/operator/adapt.rs`: parse an axis-order
descriptor string into permutation and multipliers. -/
noncomputable def descriptor (desc : Str) : Option CoordinateOrderDescriptor :=
  if desc = st "pass" then some ⟨(0, 1, 2, 3), (1, 1, 1, 1)⟩
  else if desc.length ≠ 4 ∧ desc.length ≠ 8 then none
  else
    let goodAngular := endsWithSeq (st "_deg") desc || endsWithSeq (st "_gon") desc ||
      endsWithSeq (st "_rad") desc || endsWithSeq (st "_any") desc
    if desc.length = 8 ∧ goodAngular = false then none
    else
      let torad : ℝ :=
        if desc.length = 8 ∧ endsWithSeq (st "_deg") desc = true then Real.pi / 180
        else if desc.length = 8 ∧ endsWithSeq (st "_gon") desc = true then Real.pi / 200
        else 1
      match descriptorIndices (desc.take 4) with
      | none => none
      | some idx =>
        if permutationCheck idx then
          let g := fun (i : Nat) => idx.getD i 0
          let postOf := fun (i : Nat) => (g i).natAbs - 1
          let multOf := fun (i : Nat) => ((g i).sign : ℝ) * (if i > 1 then 1 else torad)
          some ⟨(postOf 0, postOf 1, postOf 2, postOf 3),
                (multOf 0, multOf 1, multOf 2, multOf 3)⟩
        else none

/-- `from.post.iter().position(|&p| p == v).unwrap()` — the first index
of `v` in the `post` quadruple (always present for parsed descriptors;
`3` is the junk default of the embedding). -/
def posIn (t : Nat × Nat × Nat × Nat) (v : Nat) : Nat :=
  if t.1 = v then 0 else if t.2.1 = v then 1 else if t.2.2.1 = v then 2 else 3

/-- `combine_descriptors` from `src/operator/adapt.rs`. -/
noncomputable def combineDescriptors (dfrom dto : CoordinateOrderDescriptor) :
    CoordinateOrderDescriptor :=
  ⟨(posIn dfrom.post dto.post.1, posIn dfrom.post dto.post.2.1,
    posIn dfrom.post dto.post.2.2.1, posIn dfrom.post dto.post.2.2.2),
   (dfrom.mult.1 / dto.mult.1, dfrom.mult.2.1 / dto.mult.2.1,
    dfrom.mult.2.2.1 / dto.mult.2.2.1, dfrom.mult.2.2.2 / dto.mult.2.2.2)⟩

/-- The compiled `Adapt` operator (the `args`, `inverted` and `noop`
bookkeeping fields are omitted: the kernels below never read them). -/
structure Adapt where
  post : Nat × Nat × Nat × Nat
  mult : ℝ × ℝ × ℝ × ℝ

/-- `Adapt::new` from `src/operator/adapt.rs`: read `from`/`to`
(default `enut`), swap them when `inv` is set, parse both descriptors
and combine them. -/
noncomputable def adaptNew (args : List (Str × Str)) : Option Adapt :=
  let inverted := argsFlag args (st "inv")
  let f0 := argsString args (st "from") (st "enut")
  let t0 := argsString args (st "to") (st "enut")
  let fromS := if inverted then t0 else f0
  let toS := if inverted then f0 else t0
  match descriptor fromS with
  | none => none
  | some dfrom =>
    match descriptor toS with
    | none => none
    | some dto =>
      let give := combineDescriptors dfrom dto
      some ⟨give.post, give.mult⟩

/-- `Adapt::fwd` on one operand: `o'[i] = o[post[i]] * mult[i]`. -/
noncomputable def adaptFwd (op : Adapt) (o : Coord) : Coord :=
  (get4 o op.post.1 * op.mult.1,
   get4 o op.post.2.1 * op.mult.2.1,
   get4 o op.post.2.2.1 * op.mult.2.2.1,
   get4 o op.post.2.2.2 * op.mult.2.2.2)

/-- `Adapt::inv` on one operand: starting from the default (zero)
tuple, `c[post[i]] = o[i] / mult[post[i]]` for `i = 0..3`. -/
noncomputable def adaptInv (op : Adapt) (o : Coord) : Coord :=
  let c : Coord := (0, 0, 0, 0)
  let c := set4 c op.post.1 (get4 o 0 / get4 op.mult op.post.1)
  let c := set4 c op.post.2.1 (get4 o 1 / get4 op.mult op.post.2.1)
  let c := set4 c op.post.2.2.1 (get4 o 2 / get4 op.mult op.post.2.2.1)
  set4 c op.post.2.2.2 (get4 o 3 / get4 op.mult op.post.2.2.2)

/-- The compiled `Molodensky` operator of
`src/operator/molodensky.rs` (the `args` diagnostics ledger is
omitted). -/
structure Molodensky where
  ellps : Ellipsoid
  inverted : Bool
  abridged : Bool
  dx : ℝ
  dy : ℝ
  dz : ℝ
  da : ℝ
  df : ℝ
  adffda : ℝ
  es : ℝ

/-- `Molodensky::new` from `src/operator/molodensky.rs`.  Note the
transcription keeps the source exactly: both `ellps` and the "left"
ellipsoid are read from the key `ellps` (the key `left_ellps` is never
read), and `da`/`df` are overridden from the two ellipsoids whenever
`right_ellps` is present. -/
noncomputable def molodenskyNew (parseNum : Str → ℝ) (args : List (Str × Str)) :
    Molodensky :=
  let inverted := argsFlag args (st "inv")
  let ellps := (namedEllipsoid (argsString args (st "ellps") [])).getD grs80
  let abridged := argsFlag args (st "abridged")
  let dx := argsNumeric parseNum args (st "dx") 0
  let dy := argsNumeric parseNum args (st "dy") 0
  let dz := argsNumeric parseNum args (st "dz") 0
  let da0 := argsNumeric parseNum args (st "da") 0
  let df0 := argsNumeric parseNum args (st "df") 0
  let leftEllps := (namedEllipsoid (argsString args (st "ellps") [])).getD ellps
  let rightEllps := (namedEllipsoid (argsString args (st "right_ellps") [])).getD ellps
  let da := if argsHasValue args (st "right_ellps") then rightEllps.a - leftEllps.a else da0
  let df := if argsHasValue args (st "right_ellps") then rightEllps.f - leftEllps.f else df0
  let es := eccentricitySquared leftEllps
  let adffda := leftEllps.a * df + leftEllps.f * da
  ⟨leftEllps, inverted, abridged, dx, dy, dz, da, df, adffda, es⟩

/-- A coordinate after a kernel ran over it: each component is `some`
real or `none` for IEEE NaN (the only NaN source in this code is the
NaN tuple returned on a zero denominator). -/
abbrev FCoord := Option ℝ × Option ℝ × Option ℝ × Option ℝ

/-- `Molodensky::calc_molodensky_params`: the `(dλ, dφ, dh, 0)` offset
tuple, or `none` for `CoordinateTuple::nan()`. -/
noncomputable def calcMolodenskyParams (m : Molodensky) (coord : Coord) : Option Coord :=
  let a := m.ellps.a
  let f := m.ellps.f
  let es := m.es
  let dx := m.dx
  let dy := m.dy
  let dz := m.dz
  let da := m.da
  let df := m.df
  let adffda := m.adffda
  let lam := coord.1
  let phi := coord.2.1
  let h := coord.2.2.1
  let slam := Real.sin lam
  let clam := Real.cos lam
  let sphi := Real.sin phi
  let cphi := Real.cos phi
  let N := primeVerticalRadius m.ellps phi
  let M := meridianRadius m.ellps phi
  let fac := dx * clam + dy * slam
  if m.abridged then
    let dphi := (-fac * sphi + dz * cphi + adffda * Real.sin (2 * phi)) / M
    let dlamDenom := N * cphi
    if dlamDenom = 0 then none
    else
      let dlam := (dy * clam - dx * slam) / dlamDenom
      let dh := fac * cphi + (dz + adffda * sphi) * sphi - da
      some (dlam, dphi, dh, 0)
  else
    let dphiNum := (dz + N * es * sphi * da / a) * cphi - fac * sphi +
      (M / (1 - f) + N * (1 - f)) * df * sphi * cphi
    let dphiDenom := M + h
    if dphiDenom = 0 then none
    else
      let dphi := dphiNum / dphiDenom
      let dlamDenom := (N + h) * cphi
      if dlamDenom = 0 then none
      else
        let dlam := (dy * clam - dx * slam) / dlamDenom
        let dh := fac * cphi + dz * sphi - a / N * da + N * (1 - f) * df * sphi * sphi
        some (dlam, dphi, dh, 0)

/-- `Molodensky::fwd` on one operand: add the offsets to the first
three components (`coord[3]` is untouched); adding the NaN tuple turns
the first three components NaN. -/
noncomputable def molodenskyFwd1 (m : Molodensky) (coord : Coord) : FCoord :=
  match calcMolodenskyParams m coord with
  | some par => (some (coord.1 + par.1), some (coord.2.1 + par.2.1),
                 some (coord.2.2.1 + par.2.2.1), some coord.2.2.2)
  | none => (none, none, none, some coord.2.2.2)

/-- `Molodensky::inv` on one operand: subtract the offsets computed at
the input point itself. -/
noncomputable def molodenskyInv1 (m : Molodensky) (coord : Coord) : FCoord :=
  match calcMolodenskyParams m coord with
  | some par => (some (coord.1 - par.1), some (coord.2.1 - par.2.1),
                 some (coord.2.2.1 - par.2.2.1), some coord.2.2.2)
  | none => (none, none, none, some coord.2.2.2)

/-- `Molodensky::fwd` over a batch: the loop transforms every operand
in place and the kernel returns the constant `true`. -/
noncomputable def molodenskyFwdBatch (m : Molodensky) (ops : List Coord) :
    List FCoord × Bool :=
  (ops.map (molodenskyFwd1 m), true)

/-- `Molodensky::inv` over a batch. -/
noncomputable def molodenskyInvBatch (m : Molodensky) (ops : List Coord) :
    List FCoord × Bool :=
  (ops.map (molodenskyInv1 m), true)

/-- The Molodensky offsets exactly as §4.7 of the spec words them:
`a = left.a`, `f = left.f`, `e² = left.e²`, `adffda = a·df + f·da`,
abridged/full display formulas, NaN on the listed zero denominators. -/
noncomputable def molodenskySpecParams (m : Molodensky) (coord : Coord) : Option Coord :=
  let a := m.ellps.a
  let f := m.ellps.f
  let es := eccentricitySquared m.ellps
  let adffda := a * m.df + f * m.da
  let lam := coord.1
  let phi := coord.2.1
  let h := coord.2.2.1
  let slam := Real.sin lam
  let clam := Real.cos lam
  let sphi := Real.sin phi
  let cphi := Real.cos phi
  let N := primeVerticalRadius m.ellps phi
  let M := meridianRadius m.ellps phi
  let fac := m.dx * clam + m.dy * slam
  if m.abridged then
    if N * cphi = 0 then none
    else
      some ((m.dy * clam - m.dx * slam) / (N * cphi),
            (-fac * sphi + m.dz * cphi + adffda * Real.sin (2 * phi)) / M,
            fac * cphi + (m.dz + adffda * sphi) * sphi - m.da, 0)
  else
    if M + h = 0 ∨ (N + h) * cphi = 0 then none
    else
      some ((m.dy * clam - m.dx * slam) / ((N + h) * cphi),
            ((m.dz + N * es * sphi * m.da / a) * cphi - fac * sphi +
              (M / (1 - f) + N * (1 - f)) * m.df * sphi * cphi) / (M + h),
            fac * cphi + m.dz * sphi - a / N * m.da + N * (1 - f) * m.df * sphi ^ 2, 0)

/-- Forward application as the spec words it: add the spec offsets. -/
noncomputable def molodenskySpecFwd1 (m : Molodensky) (coord : Coord) : FCoord :=
  match molodenskySpecParams m coord with
  | some par => (some (coord.1 + par.1), some (coord.2.1 + par.2.1),
                 some (coord.2.2.1 + par.2.2.1), some coord.2.2.2)
  | none => (none, none, none, some coord.2.2.2)

/-- Inverse application as the spec words it: subtract the spec offsets
computed at the same point, with no iteration. -/
noncomputable def molodenskySpecInv1 (m : Molodensky) (coord : Coord) : FCoord :=
  match molodenskySpecParams m coord with
  | some par => (some (coord.1 - par.1), some (coord.2.1 - par.2.1),
                 some (coord.2.2.1 - par.2.2.1), some coord.2.2.2)
  | none => (none, none, none, some coord.2.2.2)

end Geodesy

namespace Geodesy

/-- C4 (counterexample): the claim classifies by a plain five-way
disjunction, under which `"cart]"` would be GYS because its first token
lacks a trailing colon; the source instead returns early on the
unmatched `]`, giving `false` — as the spec's own example demands. -/
theorem isGys_halfbracket_counterexample :
    isGys (st "cart]") = false ∧ isGysClaimed (st "cart]") = true := by decide

/-- C4 (amended): `is_gys` returns true iff the input contains a
whitespace-wrapped pipe, begins or ends with a pipe, or is wrapped in
matching square brackets; when exactly one of the two brackets is
present at its end the result is false; otherwise the result is true
iff the first whitespace token does not end with a colon. -/
theorem isGys_eq_amended (g : Str) : isGys g = isGysAmended g := by
  unfold isGys isGysAmended
  split_ifs <;> simp_all

/-- C5: `register_macro` refuses a duplicate name by returning `false`,
but the underlying `HashMap::insert` has already replaced the stored
definition, contradicting the claim that a `false` return leaves the
registry unchanged. -/
theorem registerMacro_false_yet_overwrites :
    (registerMacro (emptyCtx : Ctx Unit Unit) (st "foo") (st "bar: 1")).1 = true ∧
    (registerMacro (registerMacro (emptyCtx : Ctx Unit Unit) (st "foo") (st "bar: 1")).2
        (st "foo") (st "baz: 2")).1 = false ∧
    lookupAssoc (registerMacro (registerMacro (emptyCtx : Ctx Unit Unit) (st "foo")
        (st "bar: 1")).2 (st "foo") (st "baz: 2")).2.userDefinedMacros (st "foo") =
      some (st "baz: 2") := by decide

/-- The run of `pipeline_fwd`/`pipeline_inv` computes the sequential
application of the steps together with the `min`-fold of their success
counts over the start value. -/
theorem pipelineRunAux_applySeq {B : Type} (d : Direction) (steps : List (StepFn B)) :
    ∀ (b : B) (n : Nat),
      (pipelineRunAux d steps b n).1 = (applySeq d steps b).1 ∧
      (pipelineRunAux d steps b n).2 = (applySeq d steps b).2.foldl min n := by
  induction steps with
  | nil => intro b n; simp [pipelineRunAux, applySeq]
  | cons s rest ih =>
    intro b n
    simp only [pipelineRunAux, applySeq, List.foldl]
    exact ih (s b d).1 (min n (s b d).2)

/-- A `min`-fold lands in the start value or the list, and bounds both. -/
theorem foldl_min_spec : ∀ (l : List Nat) (n : Nat),
    l.foldl min n ∈ n :: l ∧ l.foldl min n ≤ n ∧ ∀ k ∈ l, l.foldl min n ≤ k := by
  intro l
  induction l with
  | nil => intro n; simp
  | cons x t ih =>
    intro n
    have h := ih (min n x)
    simp only [List.foldl]
    refine ⟨?_, ?_, ?_⟩
    · rcases List.mem_cons.mp h.1 with h1 | h1
      · rcases min_choice n x with hm | hm
        · exact List.mem_cons.mpr (Or.inl (h1.trans hm))
        · exact List.mem_cons.mpr (Or.inr (List.mem_cons.mpr (Or.inl (h1.trans hm))))
      · exact List.mem_cons.mpr (Or.inr (List.mem_cons.mpr (Or.inr h1)))
    · exact h.2.1.trans (min_le_left n x)
    · intro k hk
      rcases List.mem_cons.mp hk with hk | hk
      · exact hk ▸ h.2.1.trans (min_le_right n x)
      · exact h.2.2 k hk

/-- When every list element is bounded by the start value and the list
is nonempty, a `min`-fold is an element of the list. -/
theorem foldl_min_mem (l : List Nat) (n : Nat) (hne : l ≠ [])
    (hb : ∀ k ∈ l, k ≤ n) : l.foldl min n ∈ l := by
  rcases List.mem_cons.mp (foldl_min_spec l n).1 with h | h
  · match l, hne with
    | x :: t, _ =>
      have h1 : (x :: t).foldl min n ≤ x := (foldl_min_spec (x :: t) n).2.2 x (by simp)
      have h2 : x ≤ n := hb x (by simp)
      have h3 : (x :: t).foldl min n = x := le_antisymm h1 (by rw [h]; exact h2)
      simp [h3]
  · exact h

/-- The collected success counts are one per step. -/
theorem applySeq_length {B : Type} (d : Direction) (steps : List (StepFn B)) :
    ∀ b : B, (applySeq d steps b).2.length = steps.length := by
  induction steps with
  | nil => intro b; simp [applySeq]
  | cons s rest ih => intro b; simp [applySeq, ih]

/-- C9: a successful `operation` call returns the table length before
the call as the handle and appends exactly one entry; a failing call
leaves the table unchanged; no other public operation touches the
table; and after any sequence of further `operation` calls every
existing handle still resolves to the same operator. -/
theorem context_handles_stable {Op Ctor : Type} (compile : Ctx Op Ctor → Str → Option Op)
    (ctx : Ctx Op Ctor) (d : Str) :
    (∀ h ctx2, operationM compile ctx d = (some h, ctx2) →
      h = ctx.operations.length ∧ ∃ op, ctx2.operations = ctx.operations ++ [op]) ∧
    (∀ ctx2, operationM compile ctx d = (none, ctx2) → ctx2.operations = ctx.operations) ∧
    (∀ name defn, ((registerMacro ctx name defn).2).operations = ctx.operations) ∧
    (∀ name ctor, (registerOperator ctx name ctor).operations = ctx.operations) ∧
    (∀ which why, (errorM ctx which why).operations = ctx.operations) ∧
    (∀ {B : Type} (exec : Op → B → Bool → B × Bool) (i : Nat) (ops : B) (fwd : Bool),
      ((operateM exec ctx i ops fwd).2.1).operations = ctx.operations) ∧
    (∀ (ds : List Str) (i : Nat) (op : Op), ctx.operations[i]? = some op →
      ((applyOps compile ds ctx).operations)[i]? = some op) := by
  have hstep : ∀ (c : Ctx Op Ctor) (d2 : Str) (i : Nat) (op : Op),
      c.operations[i]? = some op →
      ((operationM compile c d2).2.operations)[i]? = some op := by
    intro c d2 i op hi
    have hops : (ctxPrep c d2).operations = c.operations := rfl
    rcases hc : compile (ctxPrep c d2) d2 with _ | op2
    · simp only [operationM, hc, hops]
      exact hi
    · simp only [operationM, hc, hops]
      have hlt : i < c.operations.length := by
        by_contra hge
        rw [List.getElem?_eq_none (Nat.le_of_not_lt hge)] at hi
        exact Option.noConfusion hi
      rw [List.getElem?_append_left hlt]
      exact hi
  refine ⟨?_, ?_, ?_, ?_, ?_, ?_, ?_⟩
  · intro h ctx2 heq
    have hops : (ctxPrep ctx d).operations = ctx.operations := rfl
    rcases hc : compile (ctxPrep ctx d) d with _ | op2
    · simp only [operationM, hc, Prod.mk.injEq] at heq
      exact absurd heq.1 (by simp)
    · simp only [operationM, hc, hops, Prod.mk.injEq] at heq
      obtain ⟨h1, h2⟩ := heq
      refine ⟨(Option.some_inj.mp h1).symm, op2, ?_⟩
      rw [← h2]
  · intro ctx2 heq
    have hops : (ctxPrep ctx d).operations = ctx.operations := rfl
    rcases hc : compile (ctxPrep ctx d) d with _ | op2
    · simp only [operationM, hc, Prod.mk.injEq] at heq
      obtain ⟨h1, h2⟩ := heq
      rw [← h2, hops]
    · simp only [operationM, hc, Prod.mk.injEq] at heq
      exact absurd heq.1 (by simp)
  · intro name defn
    simp only [registerMacro]
    split_ifs <;> rfl
  · intro name ctor
    simp [registerOperator]
  · intro which why
    simp [errorM]
  · intro B exec i ops fwd
    unfold operateM
    split_ifs with h1
    · simp [errorM]
    · rcases h2 : ctx.operations[i]? with _ | op2 <;> simp
  · intro ds
    induction ds generalizing ctx with
    | nil => intro i op hi; simpa [applyOps] using hi
    | cons d2 t ih =>
      intro i op hi
      have h1 := hstep ctx d2 i op hi
      have h2 := ih (operationM compile ctx d2).2 i op h1
      simpa [applyOps] using h2

/-- C9 (witness): a context holding one compiled operation, a compile
function that always succeeds, and two further compilations. -/
theorem context_handles_stable_witness :
    ((operationM (fun _ _ => some ()) (⟨[], [], [()], [], [], []⟩ : Ctx Unit Unit)
        (st "noop")) =
      (some 1, (operationM (fun _ _ => some ()) (⟨[], [], [()], [], [], []⟩ : Ctx Unit Unit)
        (st "noop")).2)) ∧
    (1 = (⟨[], [], [()], [], [], []⟩ : Ctx Unit Unit).operations.length ∧
      ∃ op, ((operationM (fun _ _ => some ()) (⟨[], [], [()], [], [], []⟩ : Ctx Unit Unit)
        (st "noop")).2).operations =
          (⟨[], [], [()], [], [], []⟩ : Ctx Unit Unit).operations ++ [op]) ∧
    ((⟨[], [], [()], [], [], []⟩ : Ctx Unit Unit).operations[0]? = some ()) ∧
    ((applyOps (fun _ _ => some ()) [st "a", st "b"]
        (⟨[], [], [()], [], [], []⟩ : Ctx Unit Unit)).operations[0]? = some ()) :=
  ⟨rfl,
    (context_handles_stable (fun _ _ => some ()) (⟨[], [], [()], [], [], []⟩ : Ctx Unit Unit)
      (st "noop")).1 1 _ rfl,
    rfl,
    (context_handles_stable (fun _ _ => some ()) (⟨[], [], [()], [], [], []⟩ : Ctx Unit Unit)
      (st "noop")).2.2.2.2.2.2 [st "a", st "b"] 0 () rfl⟩

theorem splitOnChar_ne_nil (c : Char) (l : Str) : splitOnChar c l ≠ [] := by
  induction l with
  | nil => simp [splitOnChar]
  | cons x xs ih =>
    simp only [splitOnChar]
    rcases h : splitOnChar c xs with _ | ⟨a, t⟩
    · exact absurd h ih
    · split_ifs <;> simp

theorem splitOnChar_not_mem (c : Char) (l : Str) (h : c ∉ l) : splitOnChar c l = [l] := by
  induction l with
  | nil => rfl
  | cons x xs ih =>
    have hx : x ≠ c := fun he => h (he ▸ List.mem_cons_self x xs)
    have hxs : c ∉ xs := fun hm => h (List.mem_cons_of_mem x hm)
    simp only [splitOnChar, ih hxs]
    simp [hx]

theorem splitOnChar_append (c : Char) (xs ys : Str) (h : c ∉ xs) :
    splitOnChar c (xs ++ c :: ys) = xs :: splitOnChar c ys := by
  induction xs with
  | nil =>
    simp only [List.nil_append, splitOnChar]
    rcases hy : splitOnChar c ys with _ | ⟨a, t⟩
    · exact absurd hy (splitOnChar_ne_nil c ys)
    · simp
  | cons x xs ih =>
    have hx : x ≠ c := fun he => h (he ▸ List.mem_cons_self x xs)
    have hxs : c ∉ xs := fun hm => h (List.mem_cons_of_mem x hm)
    simp only [List.cons_append, splitOnChar, List.append_eq]
    rw [ih hxs]
    simp [hx]

theorem takeWhile_all (p : Char → Bool) (l : Str) (h : ∀ c ∈ l, p c = true) :
    l.takeWhile p = l := by
  induction l with
  | nil => rfl
  | cons x xs ih =>
    simp only [List.takeWhile_cons, h x (List.mem_cons_self x xs)]
    simp [ih fun c hc => h c (List.mem_cons_of_mem x hc)]

theorem trimLeft_cons (x : Char) (l : Str) (hx : isWs x = false) :
    trimLeft (x :: l) = x :: l := by
  simp [trimLeft, List.dropWhile_cons, hx]

theorem trimRight_concat (y : Char) (l : Str) (hy : isWs y = false) :
    trimRight (l ++ [y]) = l ++ [y] := by
  simp [trimRight, List.dropWhile_cons, hy]

theorem trim_of_ends (x y : Char) (m : Str) (hx : isWs x = false) (hy : isWs y = false) :
    trim (x :: m ++ [y]) = x :: m ++ [y] := by
  have h1 : trimLeft (x :: (m ++ [y])) = x :: (m ++ [y]) := trimLeft_cons x (m ++ [y]) hx
  have h2 : trimRight ((x :: m) ++ [y]) = (x :: m) ++ [y] := trimRight_concat y (x :: m) hy
  simp only [trim, List.cons_append] at *
  rw [h1, h2]

theorem lastIs_concat (c y : Char) (l : Str) : lastIs c (l ++ [y]) = decide (y = c) := by
  simp [lastIs, headIs, List.reverse_append]

theorem trimMatches_of_ends (c x y : Char) (m : Str) (hx : x ≠ c) (hy : y ≠ c) :
    trimMatchesChar c (x :: m ++ [y]) = x :: m ++ [y] := by
  have h1 : (x :: m ++ [y]).dropWhile (fun a => a = c) = x :: m ++ [y] := by
    rw [List.cons_append, List.dropWhile_cons]
    simp [hx]
  have h2 : (x :: m ++ [y]).reverse = y :: (m.reverse ++ [x]) := by
    simp [List.reverse_append]
  rw [trimMatchesChar, h1, h2, List.dropWhile_cons]
  simp only [decide_eq_true_eq, hy, if_false]
  rw [← h2, List.reverse_reverse]

theorem splitWsAux_tok (xs : Str) (h : ∀ c ∈ xs, isWs c = false) :
    ∀ (rest acc : Str), splitWsAux (xs ++ rest) acc = splitWsAux rest (xs.reverse ++ acc) := by
  induction xs with
  | nil => intro rest acc; simp
  | cons x t ih =>
    intro rest acc
    have hx : isWs x = false := h x (List.mem_cons_self x t)
    have ht : ∀ c ∈ t, isWs c = false := fun c hc => h c (List.mem_cons_of_mem x hc)
    simp only [List.cons_append, splitWsAux, hx, List.append_eq, Bool.false_eq_true,
      if_false]
    rw [ih ht rest (x :: acc)]
    simp

theorem splitWs_head_tok (name rest : Str) (hn : name ≠ [])
    (hw : ∀ c ∈ name, isWs c = false) :
    splitWs (name ++ ' ' :: rest) = name :: splitWs rest := by
  rw [splitWs, splitWsAux_tok name hw (' ' :: rest) []]
  have hws : isWs ' ' = true := by decide
  simp only [splitWsAux, hws, List.append_nil]
  have hne : name.reverse ≠ [] := by simpa using hn
  simp [hne, splitWs]

theorem splitWs_single_tok (key : Str) (hk : key ≠ [])
    (hw : ∀ c ∈ key, isWs c = false) : splitWs key = [key] := by
  have h := splitWsAux_tok key hw [] []
  rw [List.append_nil] at h
  rw [splitWs, h]
  have hne : key.reverse ≠ [] := by simpa using hk
  simp [splitWsAux, hne]

theorem splitWs_two_tok (name key : Str) (hn : name ≠ []) (hk : key ≠ [])
    (hwn : ∀ c ∈ name, isWs c = false) (hwk : ∀ c ∈ key, isWs c = false) :
    splitWs (name ++ ' ' :: key) = [name, key] := by
  rw [splitWs_head_tok name key hn hwn, splitWs_single_tok key hk hwk]

theorem lastIs_mem (c : Char) (l : Str) (h : lastIs c l = true) : c ∈ l := by
  rcases hr : l.reverse with _ | ⟨y, t⟩
  · rw [lastIs, hr] at h
    exact absurd h (by simp [headIs])
  · rw [lastIs, hr] at h
    simp only [headIs, decide_eq_true_eq] at h
    have : y ∈ l := by
      have : y ∈ l.reverse := hr ▸ List.mem_cons_self y t
      simpa using this
    exact h ▸ this

theorem linesOf_single (l : Str) (hne : l ≠ []) (hnl : '\n' ∉ l) (hr : lastIs '\r' l = false) :
    linesOf l = [l] := by
  have h1 : splitOnChar '\n' l = [l] := splitOnChar_not_mem '\n' l hnl
  have h2 : lastIs '\n' l = false := by
    rcases hb : lastIs '\n' l with _ | _
    · rfl
    · exact absurd (lastIs_mem '\n' l hb) hnl
  simp [linesOf, hne, h1, h2, hr]

theorem isGys_true_of (g : Str) (hh : headIs '|' g = false) (hl : lastIs '|' g = false)
    (hb1 : headIs '[' g = false) (hb2 : lastIs ']' g = false)
    (ht : endsWithChar ':' ((splitWs g).headD []) = false) : isGys g = true := by
  by_cases hc : containsSeq (st " | ") g = true
  · simp [isGys, hc]
  · simp only [Bool.not_eq_true] at hc
    unfold isGys
    rw [hc, hh, hl, hb1, hb2, ht]
    simp


/-- Workhorse for claim C10: a single GYS step of the form
`name key:` (the trailing-colon token unconsumed) makes `gys_to_yaml`
return exactly the missing-value message and nothing else. -/
theorem gysToYaml_missing_value (name key : Str)
    (hn : name ≠ []) (hk : key ≠ [])
    (hwn : ∀ c ∈ name, isWs c = false) (hwk : ∀ c ∈ key, isWs c = false)
    (hsn : ∀ c ∈ name, c ≠ '#' ∧ c ≠ '|' ∧ c ≠ '[' ∧ c ≠ ']')
    (hsk : ∀ c ∈ key, c ≠ '#' ∧ c ≠ '|' ∧ c ≠ '[' ∧ c ≠ ']')
    (hnc : endsWithChar ':' name = false)
    (hkc : endsWithChar ':' key = true) :
    gysToYaml (name ++ ' ' :: key) =
      st "Missing value for key " ++ [sq] ++ key ++ [sq] := by
  obtain ⟨n0, nt, hname⟩ : ∃ n0 nt, name = n0 :: nt := by
    rcases name with _ | ⟨n0, nt⟩
    · exact absurd rfl hn
    · exact ⟨n0, nt, rfl⟩
  obtain ⟨ki, hkey⟩ : ∃ ki, key = ki ++ [':'] := by
    refine ⟨key.dropLast, ?_⟩
    have h1 := (List.dropLast_append_getLast hk).symm
    have h2 : key.getLast hk = ':' := by
      have h3 := hkc
      conv at h3 => rw [h1]
      simp only [endsWithChar, lastIs_concat, decide_eq_true_eq] at h3
      exact h3
    nth_rewrite 1 [h1]
    rw [h2]
  have hn0 : isWs n0 = false := by
    rw [hname] at hwn
    exact hwn n0 (List.mem_cons_self n0 nt)
  have hn0s : n0 ≠ '#' ∧ n0 ≠ '|' ∧ n0 ≠ '[' ∧ n0 ≠ ']' := by
    rw [hname] at hsn
    exact hsn n0 (List.mem_cons_self n0 nt)
  have hshape : name ++ ' ' :: key = n0 :: (nt ++ ' ' :: ki) ++ [':'] := by
    rw [hname, hkey]
    simp
  have hnl : '\n' ∉ name ++ ' ' :: key := by
    intro hmem
    rcases List.mem_append.mp hmem with hm | hm
    · exact absurd (hwn _ hm) (by decide)
    · rcases List.mem_cons.mp hm with hm2 | hm2
      · exact absurd hm2 (by decide)
      · exact absurd (hwk _ hm2) (by decide)
  have hhash : '#' ∉ name ++ ' ' :: key := by
    intro hmem
    rcases List.mem_append.mp hmem with hm | hm
    · exact (hsn '#' hm).1 rfl
    · rcases List.mem_cons.mp hm with hm2 | hm2
      · exact absurd hm2 (by decide)
      · exact (hsk '#' hm2).1 rfl
  have hpipe : '|' ∉ name ++ ' ' :: key := by
    intro hmem
    rcases List.mem_append.mp hmem with hm | hm
    · exact (hsn '|' hm).2.1 rfl
    · rcases List.mem_cons.mp hm with hm2 | hm2
      · exact absurd hm2 (by decide)
      · exact (hsk '|' hm2).2.1 rfl
  have htrim : trim (name ++ ' ' :: key) = name ++ ' ' :: key := by
    rw [hshape]
    exact trim_of_ends n0 ':' (nt ++ ' ' :: ki) hn0 (by decide)
  have hlines : linesOf (name ++ ' ' :: key) = [name ++ ' ' :: key] := by
    refine linesOf_single _ (by rw [hname]; simp) hnl ?_
    rw [hshape, lastIs_concat]
    decide
  have hlast : ∀ (c : Char), lastIs c (name ++ ' ' :: key) = decide (':' = c) := by
    intro c
    rw [hshape, lastIs_concat]
  have hheadIs : ∀ (c : Char), headIs c (name ++ ' ' :: key) = decide (n0 = c) := by
    intro c
    rw [hshape]
    simp [headIs]
  have hfirstTok : splitWs (name ++ ' ' :: key) = [name, key] :=
    splitWs_two_tok name key hn hk hwn hwk
  have hgys : isGys (name ++ ' ' :: key) = true := by
    refine isGys_true_of _ ?_ ?_ ?_ ?_ ?_
    · rw [hheadIs]
      simpa using hn0s.2.1
    · rw [hlast]
      decide
    · rw [hheadIs]
      simpa using hn0s.2.2.1
    · rw [hlast]
      decide
    · rw [hfirstTok]
      simpa using hnc
  have htm1 : trimMatchesChar '|' (name ++ ' ' :: key) = name ++ ' ' :: key := by
    rw [hshape]
    exact trimMatches_of_ends '|' n0 ':' (nt ++ ' ' :: ki) hn0s.2.1 (by decide)
  have htm2 : trimMatchesChar '[' (name ++ ' ' :: key) = name ++ ' ' :: key := by
    rw [hshape]
    exact trimMatches_of_ends '[' n0 ':' (nt ++ ' ' :: ki) hn0s.2.2.1 (by decide)
  have htm3 : trimMatchesChar ']' (name ++ ' ' :: key) = name ++ ' ' :: key := by
    rw [hshape]
    exact trimMatches_of_ends ']' n0 ':' (nt ++ ' ' :: ki) hn0s.2.2.2 (by decide)
  have hsplit : splitOnChar '|' (name ++ ' ' :: key) = [name ++ ' ' :: key] :=
    splitOnChar_not_mem '|' _ hpipe
  have hstrip : (name ++ ' ' :: key).takeWhile (fun c => c != '#') = name ++ ' ' :: key := by
    refine takeWhile_all _ _ ?_
    intro c hc
    simp only [bne_iff_ne, ne_eq, decide_eq_true_eq]
    intro hceq
    exact hhash (hceq ▸ hc)
  have hfilter : (!headIs '#' (trim (name ++ ' ' :: key))) = true := by
    rw [htrim, hheadIs]
    simpa using hn0s.1
  have hproc : processSteps [name ++ ' ' :: key] [] [] =
      Except.error (st "Missing value for key " ++ [sq] ++ key ++ [sq]) := by
    simp only [processSteps]
    rw [hstrip, htrim, hfirstTok]
    norm_num [List.headD]
    simp only [procElems]
    rw [if_neg hk, hkc]
    simp
  have hjoin : joinWith '\n' [name ++ ' ' :: key] = name ++ ' ' :: key := rfl
  rw [gysToYaml, hlines, List.filter_cons, hfilter, if_pos rfl, List.filter_nil, hjoin,
    htrim, hgys]
  rw [if_neg (by decide : ¬((!true) = true))]
  simp only []
  rw [htm1, htm2, htm3, hsplit, List.length_singleton]
  rw [if_neg (by decide : ¬(1 > 1))]
  rw [if_neg (by decide : ¬(1 > 1))]
  rw [hproc]


/-- Workhorse for claim C8: the text of an inline comment is ignored up
to the next step separator, so the conversion result does not depend on
it. -/
theorem gysToYaml_comment_runs_to_step (w : Str) (h1 : '|' ∉ w) (h2 : '\n' ∉ w) :
    gysToYaml (st "a #" ++ w ++ st "| c") = gysToYaml (st "a | c") := by
  have hshape : st "a #" ++ w ++ st "| c" =
      'a' :: ((' ' :: '#' :: w) ++ ['|', ' ']) ++ ['c'] := by
    simp [st]
  have hnl : '\n' ∉ st "a #" ++ w ++ st "| c" := by
    intro hmem
    rcases List.mem_append.mp hmem with hm | hm
    · rcases List.mem_append.mp hm with hm2 | hm2
      · exact absurd hm2 (by decide)
      · exact h2 hm2
    · exact absurd hm (by decide)
  have hpipefree : '|' ∉ st "a #" ++ w := by
    intro hmem
    rcases List.mem_append.mp hmem with hm | hm
    · exact absurd hm (by decide)
    · exact h1 hm
  have htrim : trim (st "a #" ++ w ++ st "| c") = st "a #" ++ w ++ st "| c" := by
    rw [hshape]
    exact trim_of_ends 'a' 'c' _ (by decide) (by decide)
  have hlines : linesOf (st "a #" ++ w ++ st "| c") = [st "a #" ++ w ++ st "| c"] := by
    refine linesOf_single _ (by simp [st]) hnl ?_
    rw [hshape, lastIs_concat]
    decide
  have hlast : ∀ (c : Char), lastIs c (st "a #" ++ w ++ st "| c") = decide ('c' = c) := by
    intro c
    rw [hshape, lastIs_concat]
  have hheadIs : ∀ (c : Char), headIs c (st "a #" ++ w ++ st "| c") = decide ('a' = c) := by
    intro c
    rw [hshape]
    simp [headIs]
  have hsplitws : splitWs (st "a #" ++ w ++ st "| c") =
      ['a'] :: splitWs ('#' :: w ++ st "| c") := by
    rw [show st "a #" ++ w ++ st "| c" = ['a'] ++ ' ' :: ('#' :: w ++ st "| c") by simp [st]]
    exact splitWs_head_tok ['a'] _ (by simp) (by decide)
  have hgys : isGys (st "a #" ++ w ++ st "| c") = true := by
    refine isGys_true_of _ ?_ ?_ ?_ ?_ ?_
    · rw [hheadIs]; decide
    · rw [hlast]; decide
    · rw [hheadIs]; decide
    · rw [hlast]; decide
    · rw [hsplitws]
      show endsWithChar ':' (['a'] : Str) = false
      decide
  have htm1 : trimMatchesChar '|' (st "a #" ++ w ++ st "| c") =
      st "a #" ++ w ++ st "| c" := by
    rw [hshape]
    exact trimMatches_of_ends '|' 'a' 'c' _ (by decide) (by decide)
  have htm2 : trimMatchesChar '[' (st "a #" ++ w ++ st "| c") =
      st "a #" ++ w ++ st "| c" := by
    rw [hshape]
    exact trimMatches_of_ends '[' 'a' 'c' _ (by decide) (by decide)
  have htm3 : trimMatchesChar ']' (st "a #" ++ w ++ st "| c") =
      st "a #" ++ w ++ st "| c" := by
    rw [hshape]
    exact trimMatches_of_ends ']' 'a' 'c' _ (by decide) (by decide)
  have hsplit : splitOnChar '|' (st "a #" ++ w ++ st "| c") =
      [st "a #" ++ w, st " c"] := by
    rw [show st "a #" ++ w ++ st "| c" = (st "a #" ++ w) ++ '|' :: st " c" by simp [st]]
    rw [splitOnChar_append '|' _ _ hpipefree]
    rw [splitOnChar_not_mem '|' (st " c") (by decide)]
  have htw : (st "a #" ++ w).takeWhile (fun c => c != '#') = ['a', ' '] := by
    rw [show st "a #" ++ w = 'a' :: ' ' :: '#' :: w by simp [st]]
    simp [List.takeWhile_cons]
  have hfilter : (!headIs '#' (trim (st "a #" ++ w ++ st "| c"))) = true := by
    rw [htrim, hheadIs]
    decide
  have hps : processSteps [st "a #" ++ w, st " c"] (st "    ")
      (st "pipeline_from_gys: \x7b\n  steps: [\n") =
      Except.ok (st "pipeline_from_gys: \x7b\n  steps: [\n    a: \x7b\x7d,\n    c: \x7b\x7d") := by
    simp only [processSteps]
    rw [htw]
    decide
  have hjoin : joinWith '\n' [st "a #" ++ w ++ st "| c"] = st "a #" ++ w ++ st "| c" := rfl
  have hlen : ([st "a #" ++ w, st " c"] : List Str).length = 2 := rfl
  rw [gysToYaml, hlines, List.filter_cons, hfilter, if_pos rfl, List.filter_nil, hjoin,
    htrim, hgys]
  rw [if_neg (by decide : ¬((!true) = true))]
  simp only []
  rw [htm1, htm2, htm3, hsplit, hlen]
  rw [if_pos (by decide : 2 > 1)]
  rw [if_pos (by decide : 2 > 1)]
  rw [hps]
  decide

/-- C8 (counterexample): a `|` after `#` on the same line still acts as
a step separator — `"a # b | c"` produces a two-step pipeline, not the
single step `"a: \x7b\x7d"` that comment-to-end-of-line semantics would
give. -/
theorem gysToYaml_pipe_after_hash :
    gysToYaml (st "a # b | c") =
      st "pipeline_from_gys: \x7b\n  steps: [\n    a: \x7b\x7d,\n    c: \x7b\x7d\n  ]\n\x7d" ∧
    gysToYaml (st "a # b | c") ≠ st "a: \x7b\x7d" := by
  refine ⟨by decide, by decide⟩

/-- C8 (amended): a whole line whose trimmed text starts with `#` is
dropped, and an inline comment runs from `#` to the end of the current
step — the next `|` (or end of input) — not to the end of the line; in
particular the comment body is ignored while the `|` after it still
separates steps. -/
theorem gys_comment_semantics :
    (∀ (w : Str), '|' ∉ w → '\n' ∉ w →
      gysToYaml (st "a #" ++ w ++ st "| c") = gysToYaml (st "a | c")) ∧
    gysToYaml (st "# bla\ncart") = st "cart: \x7b\x7d" := by
  refine ⟨gysToYaml_comment_runs_to_step, by decide⟩

/-- C8 (amended, witness): the comment body `" hello "` is ignored and
the pipe after it still separates. -/
theorem gys_comment_semantics_witness :
    ('|' ∉ st " hello ") ∧ ('\n' ∉ st " hello ") ∧
    gysToYaml (st "a #" ++ st " hello " ++ st "| c") = gysToYaml (st "a | c") :=
  ⟨by decide, by decide,
    gys_comment_semantics.1 (st " hello ") (by decide) (by decide)⟩

/-- C10 (counterexample): in the step `"a k: v:"` the final token `v:`
ends with a colon but is consumed as the value of `k:`, so the claimed
missing-value error is not produced — the step converts normally. -/
theorem gysToYaml_consumed_value :
    gysToYaml (st "a k: v:") = st "a: \x7bk: v:\x7d" ∧
    gysToYaml (st "a k: v:") ≠ st "Missing value for key " ++ [sq] ++ st "v:" ++ [sq] := by
  refine ⟨by decide, by decide⟩

/-- C10 (amended): `gys_to_yaml` is total and reports malformed GYS in
its output string: a step that is empty after comment stripping yields
exactly `Error: Empty step!`, and a step whose final token ends with a
colon *and is not consumed as the value of a preceding `key:` token*
(such as any step `name key:`) yields exactly
`Missing value for key (token)`, abandoning the rest. -/
theorem gys_error_reporting :
    (∀ (name key : Str), name ≠ [] → key ≠ [] →
      (∀ c ∈ name, isWs c = false) → (∀ c ∈ key, isWs c = false) →
      (∀ c ∈ name, c ≠ '#' ∧ c ≠ '|' ∧ c ≠ '[' ∧ c ≠ ']') →
      (∀ c ∈ key, c ≠ '#' ∧ c ≠ '|' ∧ c ≠ '[' ∧ c ≠ ']') →
      endsWithChar ':' name = false → endsWithChar ':' key = true →
      gysToYaml (name ++ ' ' :: key) =
        st "Missing value for key " ++ [sq] ++ key ++ [sq]) ∧
    gysToYaml (st "cart | | cart") = st "Error: Empty step!" ∧
    gysToYaml (st " | ") = st "Error: Empty step!" := by
  refine ⟨gysToYaml_missing_value, by decide, by decide⟩

/-- C10 (amended, witness): the step `cart x:` yields the
missing-value message for `x:`. -/
theorem gys_error_reporting_witness :
    (st "cart" ≠ ([] : Str)) ∧ (endsWithChar ':' (st "x:") = true) ∧
    gysToYaml (st "cart" ++ ' ' :: st "x:") =
      st "Missing value for key " ++ [sq] ++ st "x:" ++ [sq] :=
  ⟨by decide, by decide,
    gys_error_reporting.1 (st "cart") (st "x:") (by decide) (by decide) (by decide)
      (by decide) (by decide) (by decide) (by decide) (by decide)⟩

/-- C3: the pipeline forward kernel computes the sequential
application of its steps in declared order with direction `Fwd`, the
inverse kernel the reverse order with direction `Inv`, and each returns
the minimum of the per-step success counts (counts are bounded by
`usize::MAX`, trivially true for real batches). -/
theorem pipeline_order_and_min {B : Type} (steps : List (StepFn B)) (b : B)
    (hne : steps ≠ [])
    (hf : ∀ k ∈ (applySeq Direction.Fwd steps b).2, k ≤ usizeMax)
    (hv : ∀ k ∈ (applySeq Direction.Inv steps.reverse b).2, k ≤ usizeMax) :
    ((pipelineFwd steps b).1 = (applySeq Direction.Fwd steps b).1 ∧
     (pipelineFwd steps b).2 ∈ (applySeq Direction.Fwd steps b).2 ∧
     ∀ k ∈ (applySeq Direction.Fwd steps b).2, (pipelineFwd steps b).2 ≤ k) ∧
    ((pipelineInv steps b).1 = (applySeq Direction.Inv steps.reverse b).1 ∧
     (pipelineInv steps b).2 ∈ (applySeq Direction.Inv steps.reverse b).2 ∧
     ∀ k ∈ (applySeq Direction.Inv steps.reverse b).2, (pipelineInv steps b).2 ≤ k) := by
  have hF := pipelineRunAux_applySeq Direction.Fwd steps b usizeMax
  have hI := pipelineRunAux_applySeq Direction.Inv steps.reverse b usizeMax
  have hneF : (applySeq Direction.Fwd steps b).2 ≠ [] := by
    intro h
    apply hne
    have := applySeq_length Direction.Fwd steps b
    rw [h] at this
    exact List.length_eq_zero.mp this.symm
  have hneI : (applySeq Direction.Inv steps.reverse b).2 ≠ [] := by
    intro h
    apply hne
    have := applySeq_length Direction.Inv steps.reverse b
    rw [h] at this
    simp at this
    exact List.length_eq_zero.mp this.symm
  refine ⟨⟨hF.1, ?_, ?_⟩, ⟨hI.1, ?_, ?_⟩⟩
  · rw [show (pipelineFwd steps b).2 = _ from hF.2]
    exact foldl_min_mem _ _ hneF hf
  · intro k hk
    rw [show (pipelineFwd steps b).2 = _ from hF.2]
    exact (foldl_min_spec _ _).2.2 k hk
  · rw [show (pipelineInv steps b).2 = _ from hI.2]
    exact foldl_min_mem _ _ hneI hv
  · intro k hk
    rw [show (pipelineInv steps b).2 = _ from hI.2]
    exact (foldl_min_spec _ _).2.2 k hk

/-- C3 (witness): a two-step pipeline over `Nat` batches. -/
theorem pipeline_order_and_min_witness :
    (([fun b _ => (b + 1, 5), fun b _ => (b * 2, 3)] : List (StepFn Nat)) ≠ []) ∧
    (∀ k ∈ (applySeq Direction.Fwd
        ([fun b _ => (b + 1, 5), fun b _ => (b * 2, 3)] : List (StepFn Nat)) 7).2,
      k ≤ usizeMax) ∧
    ((pipelineFwd ([fun b _ => (b + 1, 5), fun b _ => (b * 2, 3)] : List (StepFn Nat)) 7).1 =
      (applySeq Direction.Fwd
        ([fun b _ => (b + 1, 5), fun b _ => (b * 2, 3)] : List (StepFn Nat)) 7).1 ∧
     (pipelineFwd ([fun b _ => (b + 1, 5), fun b _ => (b * 2, 3)] : List (StepFn Nat)) 7).2 ∈
      (applySeq Direction.Fwd
        ([fun b _ => (b + 1, 5), fun b _ => (b * 2, 3)] : List (StepFn Nat)) 7).2 ∧
     ∀ k ∈ (applySeq Direction.Fwd
        ([fun b _ => (b + 1, 5), fun b _ => (b * 2, 3)] : List (StepFn Nat)) 7).2,
      (pipelineFwd ([fun b _ => (b + 1, 5), fun b _ => (b * 2, 3)] : List (StepFn Nat)) 7).2 ≤ k) :=
  ⟨by simp, by decide,
    (pipeline_order_and_min ([fun b _ => (b + 1, 5), fun b _ => (b * 2, 3)] : List (StepFn Nat))
      7 (by simp) (by decide) (by decide)).1⟩

/-- C1: the adapt round trip is not an involution.  For the valid
descriptor pair `from:wnut to:neut` the compiled operator has
`post = (1,0,2,3)` and `mult = (-1,1,1,1)`; `inv` divides `o[i]` by
`mult[post[i]]` instead of `mult[i]`, so `inv(fwd((1,2,3,4)))`
evaluates to `(-1,-2,3,4)`. -/
theorem adapt_roundtrip_fails :
    adaptNew [(st "from", st "wnut"), (st "to", st "neut")] =
      some ⟨(1, 0, 2, 3), ((-1 : ℝ), 1, 1, 1)⟩ ∧
    adaptInv ⟨(1, 0, 2, 3), ((-1 : ℝ), 1, 1, 1)⟩
      (adaptFwd ⟨(1, 0, 2, 3), ((-1 : ℝ), 1, 1, 1)⟩ ((1 : ℝ), 2, 3, 4)) =
      ((-1 : ℝ), -2, 3, 4) ∧
    (((-1 : ℝ), (-2 : ℝ), (3 : ℝ), (4 : ℝ)) : Coord) ≠ ((1 : ℝ), 2, 3, 4) := by
  have h1 : descriptor (st "wnut") = some ⟨(0, 1, 2, 3), (-1, 1, 1, 1)⟩ := by
    simp [descriptor, descriptorIndices, charDesignator, permutationCheck, st]
    refine ⟨by decide, by decide, by decide⟩
  have h2 : descriptor (st "neut") = some ⟨(1, 0, 2, 3), (1, 1, 1, 1)⟩ := by
    simp [descriptor, descriptorIndices, charDesignator, permutationCheck, st]
    refine ⟨by decide, by decide, by decide⟩
  have ha : argsString [(st "from", st "wnut"), (st "to", st "neut")]
      (st "from") (st "enut") = st "wnut" := by decide
  have hb : argsString [(st "from", st "wnut"), (st "to", st "neut")]
      (st "to") (st "enut") = st "neut" := by decide
  have hc : argsFlag [(st "from", st "wnut"), (st "to", st "neut")] (st "inv") = false := by
    decide
  refine ⟨?_, ?_, ?_⟩
  · simp [adaptNew, ha, hb, hc, h1, h2, combineDescriptors, posIn]
  · simp [adaptFwd, adaptInv, get4, set4]
  · simp [Prod.ext_iff]
    norm_num

/-- C2: given `left_ellps: intl` and `right_ellps: GRS80` (and no
`ellps` key), the constructor's base ellipsoid is the default GRS80 —
the source reads the key `ellps`, never `left_ellps` — and the derived
`da` is `GRS80.a − GRS80.a = 0`, not `right.a − left.a = GRS80.a −
intl.a ≠ 0` as the claim requires. -/
theorem molodensky_ignores_left_ellps :
    (molodenskyNew (fun _ => 0)
      [(st "left_ellps", st "intl"), (st "right_ellps", st "GRS80")]).ellps = grs80 ∧
    (molodenskyNew (fun _ => 0)
      [(st "left_ellps", st "intl"), (st "right_ellps", st "GRS80")]).da = 0 ∧
    grs80 ≠ intl ∧ grs80.a - intl.a ≠ (0 : ℝ) := by
  refine ⟨?_, ?_, ?_, ?_⟩
  · simp [molodenskyNew, argsFlag, argsString, argsHasValue, argsNumeric, lookupAssoc,
      namedEllipsoid, st]
  · simp [molodenskyNew, argsFlag, argsString, argsHasValue, argsNumeric, lookupAssoc,
      namedEllipsoid, st]
  · simp [grs80, intl, Ellipsoid.mk.injEq]
  · simp [grs80, intl]
    norm_num

/-- C6: for any compiled Molodensky operator (its stored `es` and
`adffda` being the constructor-derived values), the offset computation
equals the spec's abridged/full formulas, it returns the NaN tuple
exactly when a listed denominator is zero, and the forward/inverse
kernels add/subtract the spec offsets computed at the input point
itself. -/
theorem molodensky_matches_spec (m : Molodensky) (c : Coord)
    (hes : m.es = eccentricitySquared m.ellps)
    (had : m.adffda = m.ellps.a * m.df + m.ellps.f * m.da) :
    calcMolodenskyParams m c = molodenskySpecParams m c ∧
    (calcMolodenskyParams m c = none ↔
      (if m.abridged then primeVerticalRadius m.ellps c.2.1 * Real.cos c.2.1 = 0
       else meridianRadius m.ellps c.2.1 + c.2.2.1 = 0 ∨
         (primeVerticalRadius m.ellps c.2.1 + c.2.2.1) * Real.cos c.2.1 = 0)) ∧
    molodenskyFwd1 m c = molodenskySpecFwd1 m c ∧
    molodenskyInv1 m c = molodenskySpecInv1 m c := by
  have hiff : calcMolodenskyParams m c = none ↔
      (if m.abridged then primeVerticalRadius m.ellps c.2.1 * Real.cos c.2.1 = 0
       else meridianRadius m.ellps c.2.1 + c.2.2.1 = 0 ∨
         (primeVerticalRadius m.ellps c.2.1 + c.2.2.1) * Real.cos c.2.1 = 0) := by
    clear hes had
    simp only [calcMolodenskyParams]
    split_ifs <;> simp_all
  have key : calcMolodenskyParams m c = molodenskySpecParams m c := by
    clear hiff
    simp only [calcMolodenskyParams, molodenskySpecParams, hes, had]
    split_ifs <;> simp_all [Prod.ext_iff] <;> ring_nf
  refine ⟨key, hiff, ?_, ?_⟩
  · simp only [molodenskyFwd1, molodenskySpecFwd1, key]
  · simp only [molodenskyInv1, molodenskySpecInv1, key]

/-- C6 (witness): the operator compiled from an empty argument list
satisfies the constructor invariants, and the correspondence holds at
the origin. -/
theorem molodensky_matches_spec_witness :
    (molodenskyNew (fun _ => 0) []).es =
      eccentricitySquared (molodenskyNew (fun _ => 0) []).ellps ∧
    (molodenskyNew (fun _ => 0) []).adffda =
      (molodenskyNew (fun _ => 0) []).ellps.a * (molodenskyNew (fun _ => 0) []).df +
        (molodenskyNew (fun _ => 0) []).ellps.f * (molodenskyNew (fun _ => 0) []).da ∧
    calcMolodenskyParams (molodenskyNew (fun _ => 0) []) (0, 0, 0, 0) =
      molodenskySpecParams (molodenskyNew (fun _ => 0) []) (0, 0, 0, 0) := by
  have h1 : (molodenskyNew (fun _ => 0) []).es =
      eccentricitySquared (molodenskyNew (fun _ => 0) []).ellps := by
    simp [molodenskyNew, argsFlag, argsString, argsHasValue, argsNumeric, lookupAssoc,
      namedEllipsoid, st]
  have h2 : (molodenskyNew (fun _ => 0) []).adffda =
      (molodenskyNew (fun _ => 0) []).ellps.a * (molodenskyNew (fun _ => 0) []).df +
        (molodenskyNew (fun _ => 0) []).ellps.f * (molodenskyNew (fun _ => 0) []).da := by
    simp [molodenskyNew, argsFlag, argsString, argsHasValue, argsNumeric, lookupAssoc,
      namedEllipsoid, st]
  exact ⟨h1, h2, (molodensky_matches_spec _ _ h1 h2).1⟩

/-- C7 (counterexample): at the pole (`φ = π/2`) the abridged offset
computation returns the NaN tuple, yet both kernels still report the
all-success value `true` — the NaN operand is not counted as a failure
in the return value. -/
theorem molodensky_nan_not_counted :
    calcMolodenskyParams (molodenskyNew (fun _ => 0) [(st "abridged", st "true")])
      (0, Real.pi / 2, 0, 0) = none ∧
    (molodenskyFwdBatch (molodenskyNew (fun _ => 0) [(st "abridged", st "true")])
      [(0, Real.pi / 2, 0, 0)]).2 = true ∧
    (molodenskyInvBatch (molodenskyNew (fun _ => 0) [(st "abridged", st "true")])
      [(0, Real.pi / 2, 0, 0)]).2 = true := by
  have hab : (molodenskyNew (fun _ => 0) [(st "abridged", st "true")]).abridged = true := by
    simp [molodenskyNew, argsFlag, lookupAssoc, st]
  refine ⟨?_, rfl, rfl⟩
  simp [calcMolodenskyParams, hab, Real.cos_pi_div_two]

/-- C7 (amended): the molodensky kernels always return `true`
regardless of NaN production; an operand whose offset computation
returned the NaN tuple stays at its place in the batch with its first
three components NaN and its time component preserved. -/
theorem molodensky_kernels_constant_true (m : Molodensky) (ops : List Coord) :
    (molodenskyFwdBatch m ops).2 = true ∧
    (molodenskyFwdBatch m ops).1.length = ops.length ∧
    (molodenskyInvBatch m ops).2 = true ∧
    (molodenskyInvBatch m ops).1.length = ops.length ∧
    (∀ (i : Nat) (c : Coord), ops[i]? = some c → calcMolodenskyParams m c = none →
      (molodenskyFwdBatch m ops).1[i]? =
        some ((none, none, none, some c.2.2.2) : FCoord)) ∧
    (∀ (i : Nat) (c : Coord), ops[i]? = some c → calcMolodenskyParams m c = none →
      (molodenskyInvBatch m ops).1[i]? =
        some ((none, none, none, some c.2.2.2) : FCoord)) := by
  refine ⟨rfl, by simp [molodenskyFwdBatch], rfl, by simp [molodenskyInvBatch], ?_, ?_⟩
  · intro i c hi hnan
    simp [molodenskyFwdBatch, hi, molodenskyFwd1, hnan]
  · intro i c hi hnan
    simp [molodenskyInvBatch, hi, molodenskyInv1, hnan]

/-- C7 (amended, witness): instantiated at the pole operand from the
counterexample. -/
theorem molodensky_kernels_constant_true_witness :
    ([((0 : ℝ), Real.pi / 2, 0, 0)][0]? = some ((0 : ℝ), Real.pi / 2, 0, 0)) ∧
    calcMolodenskyParams (molodenskyNew (fun _ => 0) [(st "abridged", st "true")])
      ((0 : ℝ), Real.pi / 2, 0, 0) = none ∧
    (molodenskyFwdBatch (molodenskyNew (fun _ => 0) [(st "abridged", st "true")])
      [((0 : ℝ), Real.pi / 2, 0, 0)]).1[0]? =
      some ((none, none, none, some (0 : ℝ)) : FCoord) := by
  have hab : (molodenskyNew (fun _ => 0) [(st "abridged", st "true")]).abridged = true := by
    simp [molodenskyNew, argsFlag, lookupAssoc, st]
  have hnan : calcMolodenskyParams (molodenskyNew (fun _ => 0) [(st "abridged", st "true")])
      ((0 : ℝ), Real.pi / 2, 0, 0) = none := by
    simp [calcMolodenskyParams, hab, Real.cos_pi_div_two]
  refine ⟨rfl, hnan, ?_⟩
  exact (molodensky_kernels_constant_true (molodenskyNew (fun _ => 0)
    [(st "abridged", st "true")]) [((0 : ℝ), Real.pi / 2, 0, 0)]).2.2.2.2.1 0 _ rfl hnan

end Geodesy

